import Mathlib

/-!
Verification development for the `nemo` memory-forensics tool (`nemo.py`).

The Python source is shallowly embedded as executable Lean definitions:

* bytes are `Nat` values, byte strings are `List Nat`, files are total
  functions `Nat → Nat` from file offset to byte;
* fallible operations (`struct.unpack`, `CrashDump.read`, the walkers)
  return `Except Err _`, with one `Err` constructor per exception kind
  that can surface;
* machine integers are `Nat` with explicit masking where the source masks.

Each definition mirrors one Python function or constructor; theorems at
the end of the file settle the specification claims.
-/

/-- Exception kinds surfaced by the embedded code.

`outsideRanges` is `OutsideRangesException`; `structError` is
`struct.error`; `unicodeDecodeError` is the ASCII decode failure;
`emptyRanges` marks the `NameError` a `CrashDump.read` over an empty
run table would raise in Python.  `addressTranslation` is the
`AddressTranslationError` wrapper the specification describes; it is
part of the modelling vocabulary so that claims about it can be stated,
and the embedded code itself never produces it. -/
inductive Err where
  | outsideRanges : Err
  | addressTranslation : Err → Err
  | structError : Err
  | unicodeDecodeError : Err
  | emptyRanges : Err
deriving DecidableEq, Repr

instance {ε α : Type} [DecidableEq ε] [DecidableEq α] : DecidableEq (Except ε α) :=
  fun a b =>
    match a, b with
    | .ok x, .ok y =>
        if h : x = y then .isTrue (by rw [h]) else .isFalse (by intro hc; cases hc; exact h rfl)
    | .error x, .error y =>
        if h : x = y then .isTrue (by rw [h]) else .isFalse (by intro hc; cases hc; exact h rfl)
    | .ok _, .error _ => .isFalse (by intro hc; cases hc)
    | .error _, .ok _ => .isFalse (by intro hc; cases hc)

/-- `struct.Struct("<L").unpack`: one little-endian unsigned 32-bit value
from exactly four bytes. -/
def unpackLE4 : List Nat → Except Err Nat
  | [b0, b1, b2, b3] => .ok (b0 + 256 * (b1 + 256 * (b2 + 256 * b3)))
  | _ => .error .structError

/-- `struct.unpack("<2L", raw)` / `struct.unpack("<LL", raw)`: two
little-endian unsigned 32-bit values from exactly eight bytes. -/
def unpack2LE4 : List Nat → Except Err (Nat × Nat)
  | [b0, b1, b2, b3, b4, b5, b6, b7] =>
      .ok (b0 + 256 * (b1 + 256 * (b2 + 256 * b3)),
           b4 + 256 * (b5 + 256 * (b6 + 256 * b7)))
  | _ => .error .structError

/-- Little-endian byte encoding of a 32-bit value, used to build concrete
memories in witnesses. -/
def le4bytes (v : Nat) : List Nat :=
  [v % 256, v / 256 % 256, v / 65536 % 256, v / 16777216 % 256]

/-- Little-endian byte encoding of a 64-bit value. -/
def le8bytes (v : Nat) : List Nat :=
  le4bytes (v % 4294967296) ++ le4bytes (v / 4294967296)

/-- The memory-source interface `ArchX86.vtop` consumes: the `mem` object
passed to `AbstractArch.__init__`, carrying `mem.dirbase` and
`mem.read(pos, length)`. -/
structure Mem where
  dirbase : Nat
  read : Nat → Nat → Except Err (List Nat)

/-- `ArchX86.parse_vaddr`: split a virtual address into
`(pdi, pti, offset)` by masking and shifting. -/
def ArchX86.parse_vaddr (addr : Nat) : Nat × Nat × Nat :=
  ((addr &&& 0xffc00000) >>> 22, (addr &&& 0x003ff000) >>> 12, addr &&& 0x00000fff)

/-- `ArchX86.vtop`: two-level page walk. Reads a 4-byte little-endian PDE
at `dirbase + pdi*4`, masks it with `0xfffff000`, reads a 4-byte PTE at
`pde + pti*4`, masks identically, and returns `pte + offset`.  Errors
from `mem.read` and `struct.unpack` propagate. -/
def ArchX86.vtop (m : Mem) (addr : Nat) : Except Err Nat :=
  let pdi := (ArchX86.parse_vaddr addr).1
  let pti := (ArchX86.parse_vaddr addr).2.1
  let offset := (ArchX86.parse_vaddr addr).2.2
  match m.read (m.dirbase + pdi * 4) 4 with
  | .error e => .error e
  | .ok bs =>
    match unpackLE4 bs with
    | .error e => .error e
    | .ok pde0 =>
      let pde := pde0 &&& 0xfffff000
      match m.read (pde + pti * 4) 4 with
      | .error e => .error e
      | .ok bs2 =>
        match unpackLE4 bs2 with
        | .error e => .error e
        | .ok pte0 =>
          let pte := pte0 &&& 0xfffff000
          .ok (pte + offset)

/-- `ArchX86PAE.parse_vaddr`: split a virtual address into
`(pdpi, pdi, pti, offset)`. -/
def ArchX86PAE.parse_vaddr (addr : Nat) : Nat × Nat × Nat × Nat :=
  ((addr &&& 0xc0000000) >>> 30, (addr &&& 0x3fe00000) >>> 21,
   (addr &&& 0x001ff000) >>> 12, addr &&& 0x00000fff)

/-- `ArchX86PAE.vtop`: three-level PAE page walk with 8-byte entry stride,
reading 4 bytes of each entry and masking with `0xfffff000`. -/
def ArchX86PAE.vtop (m : Mem) (addr : Nat) : Except Err Nat :=
  let pdpi := (ArchX86PAE.parse_vaddr addr).1
  let pdi := (ArchX86PAE.parse_vaddr addr).2.1
  let pti := (ArchX86PAE.parse_vaddr addr).2.2.1
  let offset := (ArchX86PAE.parse_vaddr addr).2.2.2
  match m.read (m.dirbase + pdpi * 8) 4 with
  | .error e => .error e
  | .ok bs =>
    match unpackLE4 bs with
    | .error e => .error e
    | .ok pdpe0 =>
      let pdpe := pdpe0 &&& 0xfffff000
      match m.read (pdpe + pdi * 8) 4 with
      | .error e => .error e
      | .ok bs2 =>
        match unpackLE4 bs2 with
        | .error e => .error e
        | .ok pde0 =>
          let pde := pde0 &&& 0xfffff000
          match m.read (pde + pti * 8) 4 with
          | .error e => .error e
          | .ok bs3 =>
            match unpackLE4 bs3 with
            | .error e => .error e
            | .ok pte0 =>
              let pte := pte0 &&& 0xfffff000
              .ok (pte + offset)

/-! ### CrashDump: run table and sparse reads -/

/-- The run-table construction loop of `CrashDump.__init__`: from the
parsed run descriptors `(start_addr, length)` (in pages) build the
`self.ranges` list of `(fpos, start_addr, length)` triples (in bytes),
advancing the file-position accumulator `fpos` by each run's byte
length.  The constructor calls it with `fpos = 1 <<< 12`, the header
size. -/
def buildRanges : List (Nat × Nat) → Nat → List (Nat × Nat × Nat)
  | [], _ => []
  | (start_addr, length) :: rest, fpos =>
      (fpos, start_addr * 4096, length * 4096) :: buildRanges rest (fpos + length * 4096)

/-- The body of the linear scan in `CrashDump.read`: for the current
triple `(fpos, saddr, rlength)`, raise `OutsideRangesException` when
`saddr > pos`; exit the loop when `saddr <= pos <= saddr + rlength`;
otherwise continue with the next triple.  When the Python `for` loop
ends without a `break`, the loop variables keep their last values and
control falls through to the seek, so an exhausted scan also computes
`fpos + (pos - saddr)` from the last triple. -/
def crashResolveAux : Nat × Nat × Nat → List (Nat × Nat × Nat) → Nat → Except Err Nat
  | (fpos, saddr, rlength), rest, pos =>
      if saddr > pos then .error .outsideRanges
      else if pos ≤ saddr + rlength then .ok (fpos + (pos - saddr))
      else
        match rest with
        | [] => .ok (fpos + (pos - saddr))
        | r :: rs => crashResolveAux r rs pos

/-- File-offset resolution performed by `CrashDump.read`: scan
`self.ranges` and return the file offset that is seeked to, or the
raised exception.  On an empty run table the Python loop body never
runs and the following statement hits unbound loop variables. -/
def crashResolve : List (Nat × Nat × Nat) → Nat → Except Err Nat
  | [], _ => .error .emptyRanges
  | r :: rs, pos => crashResolveAux r rs pos

/-- A `CrashDump` as the read path sees it: the backing file (a total
byte function, `self.mem`) and the parsed run table (`self.ranges`). -/
structure CrashDump where
  file : Nat → Nat
  ranges : List (Nat × Nat × Nat)

/-- `CrashDump.__init__` run-table construction from already-unpacked run
descriptors, with the file position starting just after the 4096-byte
header. -/
def CrashDump.ofRuns (file : Nat → Nat) (runs : List (Nat × Nat)) : CrashDump :=
  ⟨file, buildRanges runs 4096⟩

/-- `CrashDump.read(pos, length)`: resolve `pos` against the run table,
seek to the resolved file offset and read `length` bytes. -/
def CrashDump.read (c : CrashDump) (pos length : Nat) : Except Err (List Nat) :=
  match crashResolve c.ranges pos with
  | .error e => .error e
  | .ok fpos => .ok ((List.range length).map (fun i => c.file (fpos + i)))

/-- `RawDump.read(pos, length)` on a flat image given as a byte list:
`seek(pos)` then read `length` bytes (short when the file ends). -/
def rawRead (img : List Nat) (pos length : Nat) : List Nat :=
  (img.drop pos).take length

/-- Well-formedness of the run descriptors, exactly the spec's
`ExtentTable` invariant: starts ascending and runs non-overlapping.
`lb` is the page index the next run must start at or after. -/
def runsWF (lb : Nat) : List (Nat × Nat) → Prop
  | [] => True
  | (s, c) :: rest => lb ≤ s ∧ runsWF (s + c) rest

/-- Derived well-formedness of a built range list: every triple starts
at or after the running byte bound and is page-aligned. -/
def rangesWF (lb : Nat) : List (Nat × Nat × Nat) → Prop
  | [] => True
  | (_, s, l) :: rest => lb ≤ s ∧ 4096 ∣ s ∧ 4096 ∣ l ∧ rangesWF (s + l) rest

/-! ### crash_to_raw -/

/-- The zero-fill `while` loop of `crash_to_raw`: while `fpos < saddr`
write a 4096-byte zero page. -/
def zeroFill (fpos saddr : Nat) : List Nat :=
  if h : fpos < saddr then List.replicate 4096 0 ++ zeroFill (fpos + 4096) saddr
  else []
termination_by saddr - fpos
decreasing_by omega

/-- The value of `fpos` after the zero-fill `while` loop. -/
def zeroFillPos (fpos saddr : Nat) : Nat :=
  if h : fpos < saddr then zeroFillPos (fpos + 4096) saddr
  else fpos
termination_by saddr - fpos
decreasing_by omega

/-- The page-copy `for` loop of `crash_to_raw`: emit pages
`i, i+1, ..., i+n-1` of the run starting at physical `saddr`, reading
each through `crash.read(saddr + (i << 12), 4096)` against the full run
table `all`. -/
def pagesFrom (file : Nat → Nat) (all : List (Nat × Nat × Nat)) (saddr : Nat) :
    Nat → Nat → Except Err (List Nat)
  | _, 0 => .ok []
  | i, n + 1 =>
      match crashResolve all (saddr + i * 4096) with
      | .error e => .error e
      | .ok off =>
          match pagesFrom file all saddr (i + 1) n with
          | .error e => .error e
          | .ok rest => .ok ((List.range 4096).map (fun j => file (off + j)) ++ rest)

/-- The outer `for r in crash.ranges` loop of `crash_to_raw`, carrying
the output file position `fpos`; `all` is the full run table used by
the inner `crash.read` calls. -/
def crashToRawAux (file : Nat → Nat) (all : List (Nat × Nat × Nat)) :
    List (Nat × Nat × Nat) → Nat → Except Err (List Nat)
  | [], _ => .ok []
  | (_, saddr, length) :: rest, fpos =>
      match pagesFrom file all saddr 0 (length >>> 12) with
      | .error e => .error e
      | .ok pages =>
          match crashToRawAux file all rest (zeroFillPos fpos saddr + (length >>> 12) * 4096) with
          | .error e => .error e
          | .ok out => .ok (zeroFill fpos saddr ++ pages ++ out)

/-- `crash_to_raw(crash, raw)`: the byte sequence written to the flat
output file. -/
def crash_to_raw (c : CrashDump) : Except Err (List Nat) :=
  crashToRawAux c.file c.ranges c.ranges 0

/-! ### wintime: Windows FILETIME decoding

`wintime` hands the whole-day part of the tick count to Python's
`datetime.datetime(1601, 1, 1, ...) + datetime.timedelta(days)`.  That
library addition is the proleptic Gregorian calendar; it is embedded
below as an executable day-count to calendar-date conversion
(`civilFromDays`), fuel-structured so that it evaluates by kernel
reduction. -/

/-- A decoded calendar timestamp, the observable content of the Python
`datetime.datetime` value `wintime` returns. -/
structure DateTime where
  year : Nat
  month : Nat
  day : Nat
  hour : Nat
  minute : Nat
  second : Nat
  microsecond : Nat
deriving DecidableEq, Repr

/-- Gregorian leap-year rule, as implemented by Python's `datetime`. -/
def isLeap (y : Nat) : Bool :=
  (y % 4 == 0 && y % 100 != 0) || y % 400 == 0

def daysInYear (y : Nat) : Nat :=
  if isLeap y then 366 else 365

def monthLengths (y : Nat) : List Nat :=
  [31, if isLeap y then 29 else 28, 31, 30, 31, 30, 31, 31, 30, 31, 30, 31]

/-- Strip whole years from a day count.  The fuel starts at the day
count itself; every step consumes at least 365 days, so it never runs
out. -/
def yearOfAux : Nat → Nat → Nat → Nat × Nat
  | 0, y, d => (y, d)
  | fuel + 1, y, d =>
      if daysInYear y ≤ d then yearOfAux fuel (y + 1) (d - daysInYear y)
      else (y, d)

/-- Strip whole months from a day-of-year. -/
def monthOfAux : List Nat → Nat → Nat × Nat
  | [], d => (1, d + 1)
  | ml :: rest, d =>
      if d < ml then (1, d + 1)
      else
        match monthOfAux rest (d - ml) with
        | (m, dd) => (m + 1, dd)

/-- `datetime.datetime(1601, 1, 1) + datetime.timedelta(days)` as a
calendar date `(year, month, day)`. -/
def civilFromDays (days : Nat) : Nat × Nat × Nat :=
  match yearOfAux days 1601 days with
  | (y, doy) =>
      match monthOfAux (monthLengths y) doy with
      | (m, d) => (y, m, d)

/-- The `value = (hi << 32) + lo` computation of `wintime` after
`struct.unpack("<LL", raw)`. -/
def wintimeValue (raw : List Nat) : Except Err Nat :=
  match unpack2LE4 raw with
  | .error e => .error e
  | .ok (lo, hi) => .ok ((hi <<< 32) + lo)

/-- `wintime(raw)`: split the 100-nanosecond tick count into whole days
and residual hours/minutes/seconds/"microseconds" by the integer
divisions of the source, add the days to 1601-01-01 through the
calendar, and map a raw value of exactly zero to the absent sentinel
`none`.  (The source divides the sub-second remainder by 100, exactly
as written there.) -/
def wintime (raw : List Nat) : Except Err (Option DateTime) :=
  match wintimeValue raw with
  | .error e => .error e
  | .ok value =>
      let tics := value
      let days := tics / 864000000000
      let rem := tics - days * 864000000000
      let hours := rem / 36000000000
      let rem2 := rem - hours * 36000000000
      let minutes := rem2 / 600000000
      let rem3 := rem2 - minutes * 600000000
      let seconds := rem3 / 10000000
      let rem4 := rem3 - seconds * 10000000
      let microseconds := rem4 / 100
      match civilFromDays days with
      | (y, mo, d) =>
          let retval := some (DateTime.mk y mo d hours minutes seconds microseconds)
          .ok (if value == 0 then none else retval)

/-! ### Kernel-structure decoders and pslist -/

/-- `_LIST_ENTRY`: forward and back links, each a 32-bit virtual
address. -/
structure ListEntry where
  flink : Nat
  blink : Nat
deriving DecidableEq, Repr

/-- `ListEntry.__init__`: `struct.unpack("<2L", rawdata)`. -/
def ListEntry.ofBytes (rawdata : List Nat) : Except Err ListEntry :=
  match unpack2LE4 rawdata with
  | .error e => .error e
  | .ok (f, b) => .ok ⟨f, b⟩

/-- `_KPROCESS` as decoded by `KProcess.__init__` (the
`DispatcherHeader` slice is parsed but carries no data). -/
structure KProcess where
  profile_list_head : ListEntry
  directory_table_base : Nat
deriving DecidableEq, Repr

/-- `KProcess.__init__`: list head at `[0x10:0x18]`, directory table
base at `[0x18:0x1c]`. -/
def KProcess.ofBytes (rawdata : List Nat) : Except Err KProcess :=
  match ListEntry.ofBytes ((rawdata.drop 0x10).take 8) with
  | .error e => .error e
  | .ok plh =>
      match unpackLE4 ((rawdata.drop 0x18).take 4) with
      | .error e => .error e
      | .ok dtb => .ok ⟨plh, dtb⟩

/-- `struct.unpack("<15s", ...)`: demand exactly 15 bytes. -/
def unpack15s (bs : List Nat) : Except Err (List Nat) :=
  if bs.length = 15 then .ok bs else .error .structError

/-- The image-name post-processing of `EProcess.__init__`:
`image_name.replace(b"\x00", b"")` removes every NUL byte (interior
ones included), then `.decode("ascii")` fails when any remaining byte
is 128 or larger. -/
def imageNameDecode (bs : List Nat) : Except Err String :=
  let cleaned := bs.filter (fun b => b ≠ 0)
  if cleaned.all (fun b => b < 128) then
    .ok (String.mk (cleaned.map (fun b => Char.ofNat b)))
  else .error .unicodeDecodeError

/-- `_EPROCESS` as decoded by `EProcess.__init__`. -/
structure EProcess where
  base_addr : Nat
  pcb : KProcess
  active_process_links : ListEntry
  image_name : String
  pid : Nat
  create_time : Option DateTime
  exit_time : Option DateTime
deriving DecidableEq, Repr

/-- `EProcess.fullsize = 0x2d8`. -/
def EProcess.fullsize : Nat := 0x2d8

/-- `EProcess.__init__(rawdata, base_addr)`: fixed-offset slices of the
raw block, decoded in source order. -/
def EProcess.ofBytes (rawdata : List Nat) (base_addr : Nat) : Except Err EProcess :=
  match KProcess.ofBytes (rawdata.take 0x98) with
  | .error e => .error e
  | .ok pcb =>
      match ListEntry.ofBytes ((rawdata.drop 0xb8).take 8) with
      | .error e => .error e
      | .ok apl =>
          match unpack15s ((rawdata.drop 0x16c).take 15) with
          | .error e => .error e
          | .ok nameRaw =>
              match imageNameDecode nameRaw with
              | .error e => .error e
              | .ok name =>
                  match unpackLE4 ((rawdata.drop 0xb4).take 4) with
                  | .error e => .error e
                  | .ok pid =>
                      match wintime ((rawdata.drop 0xa0).take 8) with
                      | .error e => .error e
                      | .ok ct =>
                          match wintime ((rawdata.drop 0xa8).take 8) with
                          | .error e => .error e
                          | .ok et => .ok ⟨base_addr, pcb, apl, name, pid, ct, et⟩

/-- The dump interface `pslist` consumes: `dump.read`, `dump.vtop` and
`dump.process_head`. -/
structure WalkSource where
  read : Nat → Nat → Except Err (List Nat)
  vtop : Nat → Except Err Nat
  process_head : Nat

/-- The `while next_ps.flink != pslist_head` loop of `pslist`, with a
fuel bound standing in for Python's unbounded loop: `none` means the
fuel ran out before the forward link returned to the head. -/
def pslistAux (d : WalkSource) (head : Nat) :
    Nat → ListEntry → List EProcess → Except Err (Option (List EProcess))
  | 0, _, _ => .ok none
  | fuel + 1, next_ps, acc =>
      if next_ps.flink = head then .ok (some acc)
      else
        match d.vtop (next_ps.flink - 0xb8) with
        | .error e => .error e
        | .ok pa =>
            match d.read pa EProcess.fullsize with
            | .error e => .error e
            | .ok bs =>
                match EProcess.ofBytes bs (next_ps.flink - 0xb8) with
                | .error e => .error e
                | .ok ps => pslistAux d head fuel ps.active_process_links (acc ++ [ps])

/-- `pslist(dump)`: read the head `_LIST_ENTRY` through `vtop`, then walk
forward links until the head address recurs. -/
def pslist (d : WalkSource) (fuel : Nat) : Except Err (Option (List EProcess)) :=
  match d.vtop d.process_head with
  | .error e => .error e
  | .ok pa =>
      match d.read pa 8 with
      | .error e => .error e
      | .ok bs =>
          match ListEntry.ofBytes bs with
          | .error e => .error e
          | .ok le => pslistAux d d.process_head fuel le []

/-! ### Concrete memories and auxiliary definitions used by the
theorems -/

/-- Concrete two-level memory for the C4 witness: directory entry 1 holds
`0x1000 | 5`, table entry 1 of that table holds `0x2000 | 7`. -/
def memW : Mem :=
  ⟨0, fun pos len =>
    if pos = 4 ∧ len = 4 then .ok (le4bytes 0x1005)
    else if pos = 0x1004 ∧ len = 4 then .ok (le4bytes 0x2007)
    else .error .outsideRanges⟩

/-- Concrete three-level PAE memory for the C10 witness. -/
def memP : Mem :=
  ⟨0, fun pos len =>
    if pos = 0 ∧ len = 4 then .ok (le4bytes 0x3000)
    else if pos = 0x3010 ∧ len = 4 then .ok (le4bytes 0x4000)
    else if pos = 0x4008 ∧ len = 4 then .ok (le4bytes 0x5000)
    else .error .outsideRanges⟩

/-- A memory source whose every read raises `OutsideRangesException`. -/
def failMem : Mem := ⟨0, fun _ _ => .error .outsideRanges⟩

/-- The image-name algorithm as the claim words it: trim only trailing
NUL bytes, then decode as strict ASCII. -/
def imageNameSpecTrim (bs : List Nat) : Except Err String :=
  let trimmed := (bs.reverse.dropWhile (fun b => b == 0)).reverse
  if trimmed.all (fun b => b < 128) then
    .ok (String.mk (trimmed.map (fun b => Char.ofNat b)))
  else .error .unicodeDecodeError

/-- Strict ASCII decode of a byte list, used to state what the code's
image-name decode actually computes. -/
def asciiDecode (bs : List Nat) : Except Err String :=
  if bs.all (fun b => b < 128) then
    .ok (String.mk (bs.map (fun b => Char.ofNat b)))
  else .error .unicodeDecodeError

/-- Byte `i` of the little-endian encoding of `v`. -/
def leByte (v i : Nat) : Nat := v / 256 ^ i % 256

/-- Synthetic physical memory holding a 4-node circular process list:
the head `_LIST_ENTRY` at 0x1000 links to the list nodes embedded at
offset 0xb8 of three `_EPROCESS` blocks based at 0x2000, 0x3000 and
0x4000, and the last forward link returns to 0x1000.  All other bytes
are zero. -/
def synthMem (a : Nat) : Nat :=
  if 0x1000 ≤ a ∧ a < 0x1004 then leByte 0x20b8 (a - 0x1000)
  else if 0x20b8 ≤ a ∧ a < 0x20bc then leByte 0x30b8 (a - 0x20b8)
  else if 0x30b8 ≤ a ∧ a < 0x30bc then leByte 0x40b8 (a - 0x30b8)
  else if 0x40b8 ≤ a ∧ a < 0x40bc then leByte 0x1000 (a - 0x40b8)
  else 0

/-- The synthetic dump: identity translation, reads served from
`synthMem`, process-list head at 0x1000. -/
def synthDump : WalkSource :=
  ⟨fun pos len => .ok ((List.range len).map (fun i => synthMem (pos + i))),
   fun a => .ok a, 0x1000⟩

/-- The base addresses `pslist` returns on the synthetic dump with fuel
4, or `none` on error or fuel exhaustion. -/
def synthResult : Option (List Nat) :=
  match pslist synthDump 4 with
  | .ok (some l) => some (l.map (fun p => p.base_addr))
  | _ => none

/-! ### Claim theorems -/

/-! ### Bit-twiddling support lemmas -/

/-- Masking with a contiguous bit field `(2^m - 1) * 2^k` extracts
`x / 2^k % 2^m * 2^k`. -/
theorem and_field_mask (x k m : Nat) :
    x &&& ((2 ^ m - 1) * 2 ^ k) = x / 2 ^ k % 2 ^ m * 2 ^ k := by
  apply Nat.eq_of_testBit_eq
  intro i
  rw [← Nat.shiftLeft_eq (2 ^ m - 1) k]
  rw [show x / 2 ^ k % 2 ^ m * 2 ^ k = ((x >>> k) % 2 ^ m) <<< k by
    rw [Nat.shiftLeft_eq, Nat.shiftRight_eq_div_pow]]
  simp only [Nat.testBit_and, Nat.testBit_shiftLeft, Nat.testBit_two_pow_sub_one,
    Nat.testBit_mod_two_pow, Nat.testBit_shiftRight]
  by_cases hk : k ≤ i
  · have : k + (i - k) = i := by omega
    by_cases hm : i - k < m <;> simp [ge_iff_le, hk, hm, this, Bool.and_comm]
  · simp [ge_iff_le, hk]

/-- Masking with the low bits `2^m - 1` is reduction mod `2^m`. -/
theorem and_low_mask (x m : Nat) : x &&& (2 ^ m - 1) = x % 2 ^ m := by
  have h := and_field_mask x 0 m
  simp only [pow_zero, mul_one, Nat.div_one] at h
  exact h

/-- The concrete masks used by the source, rewritten to div/mod form. -/
theorem and_0xfff (x : Nat) : x &&& 0x00000fff = x % 4096 := by
  have h := and_low_mask x 12
  norm_num at h
  exact h

theorem and_0xfffff000 (x : Nat) : x &&& 0xfffff000 = x / 4096 % 1048576 * 4096 := by
  have h := and_field_mask x 12 20
  norm_num at h
  exact h

theorem and_0xffc00000_shr (x : Nat) :
    (x &&& 0xffc00000) >>> 22 = x / 4194304 % 1024 := by
  have h := and_field_mask x 22 10
  norm_num at h
  rw [h, Nat.shiftRight_eq_div_pow]
  norm_num

theorem and_0x003ff000_shr (x : Nat) :
    (x &&& 0x003ff000) >>> 12 = x / 4096 % 1024 := by
  have h := and_field_mask x 12 10
  norm_num at h
  rw [h, Nat.shiftRight_eq_div_pow]
  norm_num

theorem and_0xc0000000_shr (x : Nat) :
    (x &&& 0xc0000000) >>> 30 = x / 1073741824 % 4 := by
  have h := and_field_mask x 30 2
  norm_num at h
  rw [h, Nat.shiftRight_eq_div_pow]
  norm_num

theorem and_0x3fe00000_shr (x : Nat) :
    (x &&& 0x3fe00000) >>> 21 = x / 2097152 % 512 := by
  have h := and_field_mask x 21 9
  norm_num at h
  rw [h, Nat.shiftRight_eq_div_pow]
  norm_num

theorem and_0x001ff000_shr (x : Nat) :
    (x &&& 0x001ff000) >>> 12 = x / 4096 % 512 := by
  have h := and_field_mask x 12 9
  norm_num at h
  rw [h, Nat.shiftRight_eq_div_pow]
  norm_num

theorem and_0xffffffff (x : Nat) : x &&& 0xffffffff = x % 4294967296 := by
  have h := and_low_mask x 32
  norm_num at h
  exact h

/-- C5: for every 32-bit virtual address, `ArchX86.parse_vaddr` returns
`pdi = vaddr >> 22`, `pti = (vaddr >> 12) & 0x3ff`,
`offset = vaddr & 0xfff`, and `pdi*4096*1024 + pti*4096 + offset`
reconstructs `vaddr & 0xffffffff`; `ArchX86PAE.parse_vaddr` satisfies
the analogous round-trip with field widths 2, 9, 9 and 12 bits summing
to 32 bits. -/
theorem claim_C5_parse_vaddr_roundtrip (vaddr : Nat) (h : vaddr < 4294967296) :
    (ArchX86.parse_vaddr vaddr).1 = vaddr >>> 22 ∧
    (ArchX86.parse_vaddr vaddr).2.1 = (vaddr >>> 12) &&& 0x3ff ∧
    (ArchX86.parse_vaddr vaddr).2.2 = vaddr &&& 0xfff ∧
    (ArchX86.parse_vaddr vaddr).1 * (4096 * 1024) +
      (ArchX86.parse_vaddr vaddr).2.1 * 4096 +
      (ArchX86.parse_vaddr vaddr).2.2 = vaddr &&& 0xffffffff ∧
    (ArchX86PAE.parse_vaddr vaddr).1 < 2 ^ 2 ∧
    (ArchX86PAE.parse_vaddr vaddr).2.1 < 2 ^ 9 ∧
    (ArchX86PAE.parse_vaddr vaddr).2.2.1 < 2 ^ 9 ∧
    (ArchX86PAE.parse_vaddr vaddr).2.2.2 < 2 ^ 12 ∧
    (ArchX86PAE.parse_vaddr vaddr).1 * 2 ^ 30 +
      (ArchX86PAE.parse_vaddr vaddr).2.1 * 2 ^ 21 +
      (ArchX86PAE.parse_vaddr vaddr).2.2.1 * 2 ^ 12 +
      (ArchX86PAE.parse_vaddr vaddr).2.2.2 = vaddr &&& 0xffffffff := by
  have h10 : (vaddr >>> 12) &&& 0x3ff = vaddr / 4096 % 1024 := by
    have hl := and_low_mask (vaddr >>> 12) 10
    norm_num at hl
    rw [hl, Nat.shiftRight_eq_div_pow]
  have h22 : vaddr >>> 22 = vaddr / 4194304 := by
    rw [Nat.shiftRight_eq_div_pow]
  unfold ArchX86.parse_vaddr ArchX86PAE.parse_vaddr
  simp only [and_0xffc00000_shr, and_0x003ff000_shr, and_0xfff, and_0xffffffff,
    and_0xc0000000_shr, and_0x3fe00000_shr, and_0x001ff000_shr, h10, h22]
  norm_num
  omega

/-- Witness for C5 at the concrete address `0x12345678`. -/
theorem claim_C5_witness :
    (ArchX86.parse_vaddr 0x12345678).1 * (4096 * 1024) +
      (ArchX86.parse_vaddr 0x12345678).2.1 * 4096 +
      (ArchX86.parse_vaddr 0x12345678).2.2 = 0x12345678 &&& 0xffffffff :=
  (claim_C5_parse_vaddr_roundtrip 0x12345678 (by norm_num)).2.2.2.1

theorem unpackLE4_le4bytes (v : Nat) (h : v < 4294967296) :
    unpackLE4 (le4bytes v) = .ok v := by
  simp only [unpackLE4, le4bytes, Except.ok.injEq]
  omega

theorem unpackLE4_error (bs : List Nat) (e : Err) (h : unpackLE4 bs = .error e) :
    e = Err.structError := by
  unfold unpackLE4 at h
  split at h <;> simp_all

/-- A table entry whose address bits are a 4096-aligned 32-bit base `T`
and whose low 12 bits are arbitrary flags masks back to `T`. -/
theorem aligned_flag_mask (T fl : Nat) (hAl : T % 4096 = 0)
    (hT : T < 4294967296) (hfl : fl < 4096) : (T + fl) &&& 0xfffff000 = T := by
  rw [and_0xfffff000]
  omega

/-- C4: with a synthetic two-level table whose directory entry holds the
page-table base `T` plus any flag bits and whose table entry holds the
page base `P` plus any flag bits, `ArchX86.vtop` returns exactly
`P + offset`; the low 12 bits of either entry never affect the
result. -/
theorem claim_C4_vtop_masks_flags (m : Mem) (addr T P fD fT : Nat)
    (hTal : T % 4096 = 0) (hPal : P % 4096 = 0)
    (hT : T < 4294967296) (hP : P < 4294967296)
    (hfD : fD < 4096) (hfT : fT < 4096)
    (h1 : m.read (m.dirbase + (ArchX86.parse_vaddr addr).1 * 4) 4 =
      .ok (le4bytes (T + fD)))
    (h2 : m.read (T + (ArchX86.parse_vaddr addr).2.1 * 4) 4 =
      .ok (le4bytes (P + fT))) :
    ArchX86.vtop m addr = .ok (P + addr % 4096) := by
  have e1 : unpackLE4 (le4bytes (T + fD)) = .ok (T + fD) :=
    unpackLE4_le4bytes _ (by omega)
  have e2 : unpackLE4 (le4bytes (P + fT)) = .ok (P + fT) :=
    unpackLE4_le4bytes _ (by omega)
  have mask1 : (T + fD) &&& 0xfffff000 = T := aligned_flag_mask T fD hTal hT hfD
  have mask2 : (P + fT) &&& 0xfffff000 = P := aligned_flag_mask P fT hPal hP hfT
  have hoff : (ArchX86.parse_vaddr addr).2.2 = addr % 4096 := by
    simp only [ArchX86.parse_vaddr, and_0xfff]
  simp only [ArchX86.vtop, h1, e1, mask1, h2, e2, mask2, hoff]

/-- Witness for C4 on the concrete memory `memW`. -/
theorem claim_C4_witness :
    ArchX86.vtop memW 0x401234 = .ok (0x2000 + 0x401234 % 4096) :=
  claim_C4_vtop_masks_flags memW 0x401234 0x1000 0x2000 5 7
    (by norm_num) (by norm_num) (by norm_num) (by norm_num)
    (by norm_num) (by norm_num) (by decide) (by decide)

/-- C10: whenever either page walker returns normally, the translated
physical address preserves the page offset: the result mod 4096 equals
the virtual address mod 4096, because every table entry is masked with
`0xfffff000` before the 12-bit offset is added. -/
theorem claim_C10_vtop_preserves_offset (m : Mem) (addr p : Nat) :
    (ArchX86.vtop m addr = .ok p → p % 4096 = addr % 4096) ∧
    (ArchX86PAE.vtop m addr = .ok p → p % 4096 = addr % 4096) := by
  constructor
  · intro h
    cases hr1 : m.read (m.dirbase + (ArchX86.parse_vaddr addr).1 * 4) 4 with
    | error e1 =>
        simp only [ArchX86.vtop, hr1] at h
        exact Except.noConfusion h
    | ok bs =>
      cases hu1 : unpackLE4 bs with
      | error e1 =>
          simp only [ArchX86.vtop, hr1, hu1] at h
          exact Except.noConfusion h
      | ok pde0 =>
        cases hr2 : m.read ((pde0 &&& 0xfffff000) + (ArchX86.parse_vaddr addr).2.1 * 4) 4 with
        | error e2 =>
            simp only [ArchX86.vtop, hr1, hu1, hr2] at h
            exact Except.noConfusion h
        | ok bs2 =>
          cases hu2 : unpackLE4 bs2 with
          | error e2 =>
              simp only [ArchX86.vtop, hr1, hu1, hr2, hu2] at h
              exact Except.noConfusion h
          | ok pte0 =>
              simp only [ArchX86.vtop, hr1, hu1, hr2, hu2, Except.ok.injEq] at h
              subst h
              rw [and_0xfffff000]
              simp only [ArchX86.parse_vaddr, and_0xfff]
              omega
  · intro h
    cases hr1 : m.read (m.dirbase + (ArchX86PAE.parse_vaddr addr).1 * 8) 4 with
    | error e1 =>
        simp only [ArchX86PAE.vtop, hr1] at h
        exact Except.noConfusion h
    | ok bs =>
      cases hu1 : unpackLE4 bs with
      | error e1 =>
          simp only [ArchX86PAE.vtop, hr1, hu1] at h
          exact Except.noConfusion h
      | ok pdpe0 =>
        cases hr2 : m.read ((pdpe0 &&& 0xfffff000) + (ArchX86PAE.parse_vaddr addr).2.1 * 8) 4 with
        | error e2 =>
            simp only [ArchX86PAE.vtop, hr1, hu1, hr2] at h
            exact Except.noConfusion h
        | ok bs2 =>
          cases hu2 : unpackLE4 bs2 with
          | error e2 =>
              simp only [ArchX86PAE.vtop, hr1, hu1, hr2, hu2] at h
              exact Except.noConfusion h
          | ok pde0 =>
            cases hr3 : m.read ((pde0 &&& 0xfffff000) + (ArchX86PAE.parse_vaddr addr).2.2.1 * 8) 4 with
            | error e3 =>
                simp only [ArchX86PAE.vtop, hr1, hu1, hr2, hu2, hr3] at h
                exact Except.noConfusion h
            | ok bs3 =>
              cases hu3 : unpackLE4 bs3 with
              | error e3 =>
                  simp only [ArchX86PAE.vtop, hr1, hu1, hr2, hu2, hr3, hu3] at h
                  exact Except.noConfusion h
              | ok pte0 =>
                  simp only [ArchX86PAE.vtop, hr1, hu1, hr2, hu2, hr3, hu3,
                    Except.ok.injEq] at h
                  subst h
                  rw [and_0xfffff000]
                  simp only [ArchX86PAE.parse_vaddr, and_0xfff]
                  omega

/-- Witness for C10: both walkers on concrete memories preserve the page
offset of `0x401234`. -/
theorem claim_C10_witness :
    (0x2234 : Nat) % 4096 = 0x401234 % 4096 ∧
    (0x5234 : Nat) % 4096 = 0x401234 % 4096 :=
  ⟨(claim_C10_vtop_preserves_offset memW 0x401234 0x2234).1 (by decide),
   (claim_C10_vtop_preserves_offset memP 0x401234 0x5234).2 (by decide)⟩

/-- C2 counterexample: on a memory whose every read raises
`OutsideRangesException`, `ArchX86.vtop` surfaces that error itself,
not an `AddressTranslationError` wrapping it — no wrapping exists in
the code, so the caller cannot distinguish the two failure kinds. -/
theorem claim_C2_counterexample :
    ArchX86.vtop failMem 0 = .error .outsideRanges ∧
    (Except.error Err.outsideRanges : Except Err Nat) ≠
      .error (.addressTranslation .outsideRanges) := by
  exact ⟨by decide, by decide⟩

/-- Every error `ArchX86.vtop` returns is either a `struct.error` or an
error returned verbatim by some `mem.read` call. -/
theorem vtop_error_source (m : Mem) (addr : Nat) (e : Err)
    (h : ArchX86.vtop m addr = .error e) :
    e = Err.structError ∨ (∃ pos len, m.read pos len = .error e) := by
  cases hr1 : m.read (m.dirbase + (ArchX86.parse_vaddr addr).1 * 4) 4 with
  | error e1 =>
      simp only [ArchX86.vtop, hr1, Except.error.injEq] at h
      exact Or.inr ⟨m.dirbase + (ArchX86.parse_vaddr addr).1 * 4, 4, by rw [hr1, h]⟩
  | ok bs =>
    cases hu1 : unpackLE4 bs with
    | error e1 =>
        simp only [ArchX86.vtop, hr1, hu1, Except.error.injEq] at h
        exact Or.inl (by rw [← h]; exact unpackLE4_error bs e1 hu1)
    | ok pde0 =>
      cases hr2 : m.read ((pde0 &&& 0xfffff000) + (ArchX86.parse_vaddr addr).2.1 * 4) 4 with
      | error e2 =>
          simp only [ArchX86.vtop, hr1, hu1, hr2, Except.error.injEq] at h
          exact Or.inr ⟨(pde0 &&& 0xfffff000) + (ArchX86.parse_vaddr addr).2.1 * 4, 4,
            by rw [hr2, h]⟩
      | ok bs2 =>
        cases hu2 : unpackLE4 bs2 with
        | error e2 =>
            simp only [ArchX86.vtop, hr1, hu1, hr2, hu2, Except.error.injEq] at h
            exact Or.inl (by rw [← h]; exact unpackLE4_error bs2 e2 hu2)
        | ok pte0 =>
            simp only [ArchX86.vtop, hr1, hu1, hr2, hu2] at h
            exact Except.noConfusion h

/-- C2 amended: when an intermediate page-table dereference fails,
`ArchX86.vtop` propagates the underlying error unchanged (for either
level), and it never produces an `AddressTranslationError` wrapper of
its own: any wrapped error in its result can only have come from the
memory source itself. -/
theorem claim_C2_amended_vtop_propagates (m : Mem) (addr : Nat) (e : Err) :
    (m.read (m.dirbase + (ArchX86.parse_vaddr addr).1 * 4) 4 = .error e →
      ArchX86.vtop m addr = .error e) ∧
    (∀ bs pde0, m.read (m.dirbase + (ArchX86.parse_vaddr addr).1 * 4) 4 = .ok bs →
      unpackLE4 bs = .ok pde0 →
      m.read ((pde0 &&& 0xfffff000) + (ArchX86.parse_vaddr addr).2.1 * 4) 4 = .error e →
      ArchX86.vtop m addr = .error e) ∧
    ((∀ pos len e2, m.read pos len ≠ .error (.addressTranslation e2)) →
      ∀ e2, ArchX86.vtop m addr ≠ .error (.addressTranslation e2)) := by
  refine ⟨fun h1 => ?_, fun bs pde0 h1 hu h2 => ?_, fun hn e2 hc => ?_⟩
  · simp only [ArchX86.vtop, h1]
  · simp only [ArchX86.vtop, h1, hu, h2]
  · rcases vtop_error_source m addr _ hc with h | ⟨pos, len, hr⟩
    · exact Err.noConfusion h
    · exact hn pos len e2 hr

/-- Witness for C2 amended: the propagated error on `failMem`. -/
theorem claim_C2_witness : ArchX86.vtop failMem 5 = .error .outsideRanges :=
  (claim_C2_amended_vtop_propagates failMem 5 .outsideRanges).1 (by decide)

/-- C1 counterexample: on the single-run dump `(physicalPageIndex=1,
pageCount=2)` the read of physical address 12288 — one byte past the
run — is accepted and resolved to file offset 12288 instead of raising
`OutsideRangesException`, because the containment test's upper bound is
inclusive. -/
theorem claim_C1_counterexample :
    crashResolve (buildRanges [(1, 2)] 4096) 12288 = .ok 12288 ∧
    (Except.ok 12288 : Except Err Nat) ≠ .error .outsideRanges := by
  exact ⟨by decide, by decide⟩

/-- C1 amended: on the single-run dump `(physicalPageIndex=1,
pageCount=2)`, `read` resolves physical address 4096 to file offset
4096 and 8191 to 8191, accepts 12288 (the run's inclusive end) mapping
it to file offset 12288, and raises `OutsideRangesException` exactly
for the physical addresses strictly below 4096 — not exactly for the
uncovered ones. -/
theorem claim_C1_amended_single_run_read :
    crashResolve (buildRanges [(1, 2)] 4096) 4096 = .ok 4096 ∧
    crashResolve (buildRanges [(1, 2)] 4096) 8191 = .ok 8191 ∧
    crashResolve (buildRanges [(1, 2)] 4096) 12288 = .ok 12288 ∧
    (∀ p, crashResolve (buildRanges [(1, 2)] 4096) p = .error .outsideRanges ↔ p < 4096) ∧
    (∀ file p length, p < 4096 →
      CrashDump.read (CrashDump.ofRuns file [(1, 2)]) p length = .error .outsideRanges) := by
  have hb : buildRanges [(1, 2)] 4096 = [(4096, 4096, 8192)] := by decide
  refine ⟨by decide, by decide, by decide, fun p => ?_, fun file p length hp => ?_⟩
  · rw [hb]
    simp only [crashResolve, crashResolveAux]
    split_ifs with h1 h2
    · simpa using h1
    · simp
      omega
    · simp
      omega
  · have herr : crashResolve (buildRanges [(1, 2)] 4096) p = .error .outsideRanges := by
      rw [hb]
      simp only [crashResolve, crashResolveAux]
      rw [if_pos (by omega)]
    simp only [CrashDump.read, CrashDump.ofRuns, herr]

/-- Witness for C1 amended: a concrete read below the first run
fails. -/
theorem claim_C1_witness :
    CrashDump.read (CrashDump.ofRuns (fun _ => 0) [(1, 2)]) 0 16 = .error .outsideRanges :=
  claim_C1_amended_single_run_read.2.2.2.2 (fun _ => 0) 0 16 (by decide)

/-- Skipping a non-matching extent: when the current extent starts at or
before `pos` and ends strictly before it, the scan continues with the
remaining (nonempty) extent list. -/
theorem crashResolveAux_skip (fp sa rl : Nat) (rs : List (Nat × Nat × Nat)) (pos : Nat)
    (h1 : sa ≤ pos) (h2 : sa + rl < pos) (hne : rs ≠ []) :
    crashResolveAux (fp, sa, rl) rs pos = crashResolve rs pos := by
  cases rs with
  | nil => exact absurd rfl hne
  | cons r2 rs2 =>
      simp only [crashResolveAux, crashResolve]
      rw [if_neg (by omega), if_neg (by omega)]

/-- C6: the containment test of `CrashDump.read` uses an inclusive upper
bound: a position equal to `physicalStart + length` of an extent
reached by the scan is accepted and resolved within that extent as
`fileOffset + (pos - physicalStart)`, even though that byte belongs to
the next extent. -/
theorem claim_C6_inclusive_upper_bound (pre rest : List (Nat × Nat × Nat)) (f s l pos : Nat)
    (hpre : ∀ f2 s2 l2, (f2, s2, l2) ∈ pre → s2 + l2 < pos)
    (hpos : pos = s + l) :
    crashResolve (pre ++ (f, s, l) :: rest) pos = .ok (f + (pos - s)) := by
  induction pre with
  | nil =>
      cases rest with
      | nil =>
          simp only [List.nil_append, crashResolve, crashResolveAux]
          rw [if_neg (by omega), if_pos (by omega)]
      | cons r2 rs2 =>
          simp only [List.nil_append, crashResolve, crashResolveAux]
          rw [if_neg (by omega), if_pos (by omega)]
  | cons hd tl ih =>
      obtain ⟨f2, s2, l2⟩ := hd
      have hh := hpre f2 s2 l2 (List.mem_cons_self _ _)
      have hrec : ∀ f2 s2 l2, (f2, s2, l2) ∈ tl → s2 + l2 < pos :=
        fun a b c hm => hpre a b c (List.mem_cons_of_mem _ hm)
      have step : crashResolve ((f2, s2, l2) :: (tl ++ (f, s, l) :: rest)) pos =
          crashResolve (tl ++ (f, s, l) :: rest) pos := by
        simp only [crashResolve]
        exact crashResolveAux_skip f2 s2 l2 _ pos (by omega) (by omega) (by simp)
      rw [List.cons_append, step]
      exact ih hrec

/-- Witness for C6: the single-run table accepts its inclusive end
12288. -/
theorem claim_C6_witness :
    crashResolve [(4096, 4096, 8192)] 12288 = .ok (4096 + (12288 - 4096)) :=
  claim_C6_inclusive_upper_bound [] [] 4096 4096 8192 12288
    (fun _ _ _ hm => absurd hm (List.not_mem_nil _)) rfl

/-- C7: `wintime` decodes its 8 raw bytes as a little-endian 64-bit
count of 100-nanosecond ticks since 1601-01-01: a raw value of exactly
zero yields the absent sentinel, the tick value of exactly one day
(864,000,000,000 ticks) yields the calendar timestamp
1601-01-02T00:00:00.000000, and the value extracted from bytes
`b0..b7` is their little-endian 64-bit composition. -/
theorem claim_C7_wintime :
    wintime (List.replicate 8 0) = .ok none ∧
    wintime (le8bytes 864000000000) = .ok (some (DateTime.mk 1601 1 2 0 0 0 0)) ∧
    (∀ b0 b1 b2 b3 b4 b5 b6 b7 : Nat,
      wintimeValue [b0, b1, b2, b3, b4, b5, b6, b7] =
        .ok (b0 + 256 * b1 + 65536 * b2 + 16777216 * b3 + 4294967296 * b4 +
             1099511627776 * b5 + 281474976710656 * b6 + 72057594037927936 * b7)) := by
  refine ⟨by decide, by decide, fun b0 b1 b2 b3 b4 b5 b6 b7 => ?_⟩
  simp only [wintimeValue, unpack2LE4, Except.ok.injEq]
  rw [Nat.shiftLeft_eq]
  ring

/-- C8 counterexample: on the 15-byte field `b"a\x00b" + 12 NULs` the
code's decode removes the interior NUL too and yields `"ab"`, while the
claimed trailing-trim algorithm yields `"a\x00b"`. -/
theorem claim_C8_counterexample :
    imageNameDecode ([97, 0, 98] ++ List.replicate 12 0) = .ok "ab" ∧
    imageNameSpecTrim ([97, 0, 98] ++ List.replicate 12 0) =
      .ok (String.mk [Char.ofNat 97, Char.ofNat 0, Char.ofNat 98]) ∧
    ("ab" : String) ≠ String.mk [Char.ofNat 97, Char.ofNat 0, Char.ofNat 98] := by
  exact ⟨by decide, by decide, by decide⟩

/-- C8 amended: the 15-byte image-name field is decoded by removing
every NUL byte (interior ones included, via
`replace(b"\x00", b"")`), then decoding the remainder as strict ASCII,
failing the whole decode when a non-ASCII byte is present; decoding
`b"notepad.exe"` followed by four NULs yields `"notepad.exe"`. -/
theorem claim_C8_amended_image_name (bs : List Nat) :
    imageNameDecode bs = asciiDecode (bs.filter (fun b => b ≠ 0)) ∧
    imageNameDecode ([110, 111, 116, 101, 112, 97, 100, 46, 101, 120, 101] ++
      List.replicate 4 0) = .ok "notepad.exe" ∧
    (∀ b, b ∈ bs → 128 ≤ b → imageNameDecode bs = .error .unicodeDecodeError) := by
  refine ⟨rfl, by decide, fun b hb hge => ?_⟩
  have hbf : b ∈ bs.filter (fun x => x ≠ 0) := by
    rw [List.mem_filter]
    refine ⟨hb, by simp; omega⟩
  simp only [imageNameDecode]
  rw [if_neg]
  intro hall
  have := List.all_eq_true.mp hall b hbf
  simp at this
  omega

/-- Witness for C8 amended: a single non-ASCII byte fails the decode. -/
theorem claim_C8_witness :
    imageNameDecode [200] = .error .unicodeDecodeError :=
  (claim_C8_amended_image_name [200]).2.2 200 (by decide) (by decide)

set_option maxRecDepth 10000 in
/-- C3: on the synthetic 4-node circular list whose final forward link
equals the original head address, `pslist` terminates (within fuel 4)
and returns exactly the 3 process records other than the head sentinel,
in forward-link order. -/
theorem claim_C3_pslist_circular :
    synthResult = some [0x2000, 0x3000, 0x4000] := by decide

/-! ### Support lemmas for the crash_to_raw round-trip (C9) -/

/-- Every triple built from well-formed runs starts at or after the
current page lower bound. -/
theorem buildRanges_mem_lb (runs : List (Nat × Nat)) :
    ∀ lb f0 f s l, runsWF lb runs → (f, s, l) ∈ buildRanges runs f0 →
      lb * 4096 ≤ s := by
  induction runs with
  | nil => intro lb f0 f s l _ hm; simp [buildRanges] at hm
  | cons hd tl ih =>
      obtain ⟨s0, c0⟩ := hd
      intro lb f0 f s l hwf hm
      simp only [runsWF] at hwf
      obtain ⟨hlb, hwf2⟩ := hwf
      simp only [buildRanges, List.mem_cons] at hm
      rcases hm with heq | hm
      · simp only [Prod.mk.injEq] at heq
        omega
      · have := ih (s0 + c0) (f0 + c0 * 4096) f s l hwf2 hm
        omega

/-- In a well-formed table, a triple that starts at or before the
current lower bound can only be reached through zero-length runs, so
its file offset is the current accumulator. -/
theorem buildRanges_head_offset (runs : List (Nat × Nat)) :
    ∀ lb f1 f s l, runsWF lb runs → (f, s, l) ∈ buildRanges runs f1 →
      s ≤ lb * 4096 → f = f1 := by
  induction runs with
  | nil => intro lb f1 f s l _ hm; simp [buildRanges] at hm
  | cons hd tl ih =>
      obtain ⟨s1, c1⟩ := hd
      intro lb f1 f s l hwf hm hs
      simp only [runsWF] at hwf
      obtain ⟨hlb, hwf2⟩ := hwf
      simp only [buildRanges, List.mem_cons] at hm
      rcases hm with heq | hm
      · simp only [Prod.mk.injEq] at heq
        exact heq.1
      · have hsge := buildRanges_mem_lb tl (s1 + c1) (f1 + c1 * 4096) f s l hwf2 hm
        have hc1 : c1 = 0 := by omega
        subst hc1
        have := ih (s1 + 0) (f1 + 0 * 4096) f s l hwf2 hm (by omega)
        omega

/-- Resolution correctness on a well-formed table: a position strictly
inside an extent resolves to that extent's file offset plus the offset
within the extent.  (When a the position coincides with the inclusive
end of an earlier extent, the contiguity of the file-offset
accumulator makes the captured answer agree.) -/
theorem crashResolve_buildRanges (runs : List (Nat × Nat)) :
    ∀ lb f0 p f s l, runsWF lb runs → (f, s, l) ∈ buildRanges runs f0 →
      s ≤ p → p < s + l →
      crashResolve (buildRanges runs f0) p = .ok (f + (p - s)) := by
  induction runs with
  | nil => intro lb f0 p f s l _ hm; simp [buildRanges] at hm
  | cons hd tl ih =>
      obtain ⟨s0, c0⟩ := hd
      intro lb f0 p f s l hwf hm hs hp
      simp only [runsWF] at hwf
      obtain ⟨hlb, hwf2⟩ := hwf
      simp only [buildRanges, List.mem_cons] at hm
      rcases hm with heq | hm
      · simp only [Prod.mk.injEq] at heq
        obtain ⟨hf, hseq, hleq⟩ := heq
        subst hf; subst hseq; subst hleq
        simp only [buildRanges, crashResolve]
        cases htl : buildRanges tl (f + c0 * 4096) with
        | nil =>
            simp only [crashResolveAux]
            rw [if_neg (by omega), if_pos (by omega)]
        | cons r2 rs2 =>
            simp only [crashResolveAux]
            rw [if_neg (by omega), if_pos (by omega)]
      · have hsge := buildRanges_mem_lb tl (s0 + c0) (f0 + c0 * 4096) f s l hwf2 hm
        by_cases hcap : p ≤ s0 * 4096 + c0 * 4096
        · -- the scan stops already at the head extent's inclusive end
          have hps : p = (s0 + c0) * 4096 := by omega
          have hseq : s = (s0 + c0) * 4096 := by omega
          have hf : f = f0 + c0 * 4096 :=
            buildRanges_head_offset tl (s0 + c0) (f0 + c0 * 4096) f s l hwf2 hm (by omega)
          simp only [buildRanges, crashResolve]
          cases htl : buildRanges tl (f0 + c0 * 4096) with
          | nil => rw [htl] at hm; exact absurd hm (List.not_mem_nil _)
          | cons r2 rs2 =>
              simp only [crashResolveAux]
              rw [if_neg (by omega), if_pos (by omega)]
              congr 1
              omega
        · -- skip the head extent and recurse into the tail
          have hne : buildRanges tl (f0 + c0 * 4096) ≠ [] := by
            intro hnil
            rw [hnil] at hm
            exact absurd hm (List.not_mem_nil _)
          have step : crashResolve (buildRanges ((s0, c0) :: tl) f0) p =
              crashResolve (buildRanges tl (f0 + c0 * 4096)) p := by
            simp only [buildRanges, crashResolve]
            exact crashResolveAux_skip f0 (s0 * 4096) (c0 * 4096) _ p
              (by omega) (by omega) hne
          rw [step]
          exact ih (s0 + c0) (f0 + c0 * 4096) p f s l hwf2 hm hs hp

/-- The zero-fill loop over a whole number of pages writes exactly the
gap in zero bytes and leaves `fpos` at the target. -/
theorem zeroFill_aligned (k : Nat) : ∀ fpos,
    zeroFill fpos (fpos + 4096 * k) = List.replicate (4096 * k) 0 ∧
    zeroFillPos fpos (fpos + 4096 * k) = fpos + 4096 * k := by
  induction k with
  | zero =>
      intro fpos
      rw [zeroFill, zeroFillPos]
      simp
  | succ k ih =>
      intro fpos
      rw [zeroFill, zeroFillPos]
      have hlt : fpos < fpos + 4096 * (k + 1) := by omega
      rw [dif_pos hlt, dif_pos hlt]
      have heq : fpos + 4096 * (k + 1) = (fpos + 4096) + 4096 * k := by omega
      rw [heq]
      obtain ⟨h1, h2⟩ := ih (fpos + 4096)
      rw [h1, h2]
      refine ⟨?_, by omega⟩
      rw [← List.replicate_add]
      congr 1
      omega

/-- Zero-fill between page-aligned positions. -/
theorem zeroFill_eq_replicate (fpos saddr : Nat) (hle : fpos ≤ saddr)
    (hdvd : 4096 ∣ saddr - fpos) :
    zeroFill fpos saddr = List.replicate (saddr - fpos) 0 ∧
    zeroFillPos fpos saddr = saddr := by
  obtain ⟨k, hk⟩ := hdvd
  have hsa : saddr = fpos + 4096 * k := by omega
  subst hsa
  obtain ⟨h1, h2⟩ := zeroFill_aligned k fpos
  refine ⟨?_, h2⟩
  rw [h1]
  congr 1
  omega

/-- The page-copy loop succeeds and produces the file bytes of the
extent when every page of the run resolves to its contiguous file
offset. -/
theorem pagesFrom_ok (file : Nat → Nat) (all : List (Nat × Nat × Nat)) (saddr fbase : Nat)
    (n : Nat) : ∀ i,
    (∀ k, k < n → crashResolve all (saddr + (i + k) * 4096) = .ok (fbase + (i + k) * 4096)) →
    ∃ pg, pagesFrom file all saddr i n = .ok pg ∧ pg.length = n * 4096 ∧
      ∀ q, q < n * 4096 → pg.get? q = some (file (fbase + i * 4096 + q)) := by
  induction n with
  | zero =>
      intro i _
      exact ⟨[], rfl, rfl, fun q hq => absurd hq (by omega)⟩
  | succ n ih =>
      intro i hres
      have h0 : crashResolve all (saddr + i * 4096) = .ok (fbase + i * 4096) := by
        have h := hres 0 (by omega)
        simpa using h
      obtain ⟨pg, hpg, hlen, hget⟩ := ih (i + 1) (fun k hk => by
        have h := hres (k + 1) (by omega)
        have hrw : i + (k + 1) = i + 1 + k := by omega
        rw [hrw] at h
        exact h)
      refine ⟨(List.range 4096).map (fun j => file (fbase + i * 4096 + j)) ++ pg, ?_, ?_, ?_⟩
      · simp only [pagesFrom, h0, hpg]
      · simp only [List.length_append, List.length_map, List.length_range, hlen]
        ring
      · intro q hq
        by_cases hq4 : q < 4096
        · rw [List.get?_append (by simpa using hq4)]
          rw [List.get?_map, List.get?_range hq4]
          rfl
        · rw [List.get?_append_right (by simpa using hq4)]
          simp only [List.length_map, List.length_range]
          rw [hget (q - 4096) (by omega)]
          have harg : fbase + (i + 1) * 4096 + (q - 4096) = fbase + i * 4096 + q := by omega
          rw [harg]

/-- Members of a well-formed triple list start at or after the lower
bound. -/
theorem rangesWF_mem_lb (todo : List (Nat × Nat × Nat)) :
    ∀ lb f s l, rangesWF lb todo → (f, s, l) ∈ todo → lb ≤ s := by
  induction todo with
  | nil => intro lb f s l _ hm; exact absurd hm (List.not_mem_nil _)
  | cons hd tl ih =>
      obtain ⟨f0, s0, l0⟩ := hd
      intro lb f s l hwf hm
      simp only [rangesWF] at hwf
      obtain ⟨hle, _, hdL, hwf2⟩ := hwf
      rcases List.mem_cons.mp hm with heq | hm2
      · simp only [Prod.mk.injEq] at heq
        omega
      · have := ih (s0 + l0) f s l hwf2 hm2
        omega

/-- A range list built from well-formed runs is well-formed as a triple
list. -/
theorem buildRanges_rangesWF (runs : List (Nat × Nat)) :
    ∀ lb f0 fpos, runsWF lb runs → fpos ≤ lb * 4096 →
    rangesWF fpos (buildRanges runs f0) := by
  induction runs with
  | nil => intro lb f0 fpos _ _; simp [buildRanges, rangesWF]
  | cons hd tl ih =>
      obtain ⟨s0, c0⟩ := hd
      intro lb f0 fpos hwf hfp
      simp only [runsWF] at hwf
      obtain ⟨hlb, hwf2⟩ := hwf
      simp only [buildRanges, rangesWF]
      refine ⟨by omega, ⟨s0, by ring⟩, ⟨c0, by ring⟩, ?_⟩
      exact ih (s0 + c0) (f0 + c0 * 4096) (s0 * 4096 + c0 * 4096) hwf2 (by omega)

/-- The conversion loop succeeds on a well-formed table whose pages all
resolve, and the output byte at flat position `p` of any in-extent
address is the extent's file byte. -/
theorem crashToRawAux_ok (file : Nat → Nat) (all : List (Nat × Nat × Nat)) :
    ∀ (todo : List (Nat × Nat × Nat)) (fpos : Nat),
    rangesWF fpos todo → 4096 ∣ fpos →
    (∀ f s l, (f, s, l) ∈ todo → ∀ i, i * 4096 < l →
      crashResolve all (s + i * 4096) = .ok (f + i * 4096)) →
    ∃ out, crashToRawAux file all todo fpos = .ok out ∧
      ∀ f s l p, (f, s, l) ∈ todo → s ≤ p → p < s + l →
        out.get? (p - fpos) = some (file (f + (p - s))) := by
  intro todo
  induction todo with
  | nil =>
      intro fpos _ _ _
      exact ⟨[], rfl, fun f s l p hm => absurd hm (List.not_mem_nil _)⟩
  | cons hd tl ih =>
      obtain ⟨f0, s0, l0⟩ := hd
      intro fpos hwf hdvd hres
      simp only [rangesWF] at hwf
      obtain ⟨hle, hdS, hdL, hwf2⟩ := hwf
      obtain ⟨hz, hzp⟩ := zeroFill_eq_replicate fpos s0 hle (Nat.dvd_sub' hdS hdvd)
      have hl0 : l0 >>> 12 * 4096 = l0 := by
        rw [Nat.shiftRight_eq_div_pow]
        exact Nat.div_mul_cancel hdL
      have hresHead : ∀ k, k < l0 >>> 12 →
          crashResolve all (s0 + (0 + k) * 4096) = .ok (f0 + (0 + k) * 4096) := by
        intro k hk
        have hlt : k * 4096 < l0 := by omega
        have h := hres f0 s0 l0 (List.mem_cons_self _ _) k hlt
        simpa using h
      obtain ⟨pg, hpg, hpglen, hpgget⟩ := pagesFrom_ok file all s0 f0 (l0 >>> 12) 0 hresHead
      have hwfT : rangesWF (zeroFillPos fpos s0 + l0 >>> 12 * 4096) tl := by
        rw [hzp, hl0]
        exact hwf2
      have hdvdT : 4096 ∣ zeroFillPos fpos s0 + l0 >>> 12 * 4096 := by
        rw [hzp, hl0]
        exact Nat.dvd_add hdS hdL
      have hresT : ∀ f s l, (f, s, l) ∈ tl → ∀ i, i * 4096 < l →
          crashResolve all (s + i * 4096) = .ok (f + i * 4096) :=
        fun f s l hm => hres f s l (List.mem_cons_of_mem _ hm)
      obtain ⟨out2, hout2, hget2⟩ := ih (zeroFillPos fpos s0 + l0 >>> 12 * 4096) hwfT hdvdT hresT
      refine ⟨List.replicate (s0 - fpos) 0 ++ pg ++ out2, ?_, ?_⟩
      · simp only [crashToRawAux, hpg, hout2, hz]
      · intro f s l p hm hsp hpl
        rcases List.mem_cons.mp hm with heq | hm2
        · simp only [Prod.mk.injEq] at heq
          obtain ⟨hfe, hse, hle2⟩ := heq
          subst hfe; subst hse; subst hle2
          have hidx : p - fpos = s - fpos + (p - s) := by omega
          rw [hidx]
          have hlen1 : s - fpos + (p - s) < (List.replicate (s - fpos) 0 ++ pg).length := by
            simp only [List.length_append, List.length_replicate, hpglen]
            omega
          rw [List.get?_append hlen1]
          rw [List.get?_append_right (by simp)]
          simp only [List.length_replicate]
          have hq : s - fpos + (p - s) - (s - fpos) = p - s := by omega
          rw [hq]
          have h := hpgget (p - s) (by omega)
          simpa using h
        · have hsge : s0 + l0 ≤ s := rangesWF_mem_lb tl (s0 + l0) f s l hwf2 hm2
          have hidx : p - fpos = (s0 - fpos + l0 >>> 12 * 4096) + (p - (s0 + l0)) := by omega
          rw [hidx]
          rw [List.get?_append_right
            (by simp only [List.length_append, List.length_replicate, hpglen]; omega)]
          simp only [List.length_append, List.length_replicate, hpglen]
          have h := hget2 f s l p hm2 hsp hpl
          rw [hzp, hl0] at h
          have hq : s0 - fpos + l0 >>> 12 * 4096 + (p - (s0 + l0)) -
              (s0 - fpos + l0 >>> 12 * 4096) = p - (s0 + l0) := by omega
          rw [hq]
          exact h

/-- C9: for every physical address covered by some extent of a
well-formed `CrashDump`, converting the dump to a flat image with
`crash_to_raw` (which replays every extent in order and zero-fills
uncovered physical gaps) and then reading that address from the flat
image yields the same bytes as reading it directly from the
`CrashDump`. -/
theorem claim_C9_crash_to_raw_roundtrip (file : Nat → Nat) (runs : List (Nat × Nat))
    (p f s l : Nat) (hwf : runsWF 0 runs)
    (hm : (f, s, l) ∈ (CrashDump.ofRuns file runs).ranges)
    (hs : s ≤ p) (hp : p < s + l) :
    ∃ out, crash_to_raw (CrashDump.ofRuns file runs) = .ok out ∧
      rawRead out p 1 = [file (f + (p - s))] ∧
      CrashDump.read (CrashDump.ofRuns file runs) p 1 = .ok [file (f + (p - s))] := by
  have hranges : (CrashDump.ofRuns file runs).ranges = buildRanges runs 4096 := rfl
  rw [hranges] at hm
  have hresolve := crashResolve_buildRanges runs 0 4096 p f s l hwf hm hs hp
  have hwfR : rangesWF 0 (buildRanges runs 4096) :=
    buildRanges_rangesWF runs 0 4096 0 hwf (by omega)
  have hresAll : ∀ f2 s2 l2, (f2, s2, l2) ∈ buildRanges runs 4096 → ∀ i, i * 4096 < l2 →
      crashResolve (buildRanges runs 4096) (s2 + i * 4096) = .ok (f2 + i * 4096) := by
    intro f2 s2 l2 hm2 i hi
    have h := crashResolve_buildRanges runs 0 4096 (s2 + i * 4096) f2 s2 l2 hwf hm2
      (by omega) (by omega)
    have harg : s2 + i * 4096 - s2 = i * 4096 := by omega
    rw [harg] at h
    exact h
  obtain ⟨out, hout, hget⟩ := crashToRawAux_ok file (buildRanges runs 4096)
    (buildRanges runs 4096) 0 hwfR ⟨0, rfl⟩ hresAll
  have hbyte := hget f s l p hm hs hp
  rw [Nat.sub_zero] at hbyte
  refine ⟨out, hout, ?_, ?_⟩
  · obtain ⟨hlt, hval⟩ := List.get?_eq_some.mp hbyte
    rw [List.get_eq_getElem] at hval
    unfold rawRead
    rw [List.drop_eq_getElem_cons hlt, hval]
    rfl
  · simp only [CrashDump.read, CrashDump.ofRuns, hresolve]
    simp [show List.range 1 = [0] from rfl]

/-- Witness for C9 on the single-run dump with the identity-mod-256
file. -/
theorem claim_C9_witness :
    ∃ out, crash_to_raw (CrashDump.ofRuns (fun n => n % 256) [(1, 2)]) = .ok out ∧
      rawRead out 5000 1 = [(4096 + (5000 - 4096)) % 256] ∧
      CrashDump.read (CrashDump.ofRuns (fun n => n % 256) [(1, 2)]) 5000 1 =
        .ok [(4096 + (5000 - 4096)) % 256] :=
  claim_C9_crash_to_raw_roundtrip (fun n => n % 256) [(1, 2)] 5000 4096 4096 8192
    ⟨by omega, trivial⟩ (by decide) (by decide) (by decide)
